import Mathlib

/-!
# Verification of the cpdash scan-and-dump pipeline

A shallow embedding of the cpdash core (pattern compilation, recursive
prefix listing with subtree pruning, size-based lane routing with a soft
download limit, compression sniffing, and the serialized output writer),
translated from the Go sources, together with theorems settling the
specification claims.

Strings from the Go code are modelled as lists of bytes (`List Nat`);
the Go code itself works byte-wise (`strings.IndexByte`, byte slices).
-/

set_option maxRecDepth 10000

namespace Cpdash

/-- Byte value of the path separator character. -/
def sepByte : Nat := 47

/-- The glob metacharacter bytes checked by `newGlobPattern`, in the order
the Go loop checks them: left brace, left bracket, star, backslash,
question mark (`\x7b \x5b \x2a \x5c \x3f`). -/
def metaBytes : List Nat := [123, 91, 42, 92, 63]

/-- Model of Go `strings.IndexByte`: index of the first occurrence of
byte `c`, or `none`. -/
def indexByte (c : Nat) : List Nat → Option Nat
  | [] => none
  | d :: rest => if d = c then some 0 else (indexByte c rest).map (· + 1)

/-- Model of Go `strings.Contains(dir, "**")`: two consecutive star bytes. -/
def hasDoubleStar : List Nat → Bool
  | 42 :: 42 :: _ => true
  | _ :: rest => hasDoubleStar rest
  | [] => false

/-- Model of Go `strings.Count(s, "/")` (as an `Int`, since the compiled
depth tags are compared with the sentinel `-1`). -/
def countSlashes (l : List Nat) : Int :=
  ((l.filter (· = sepByte)).length : Int)

/-- Model of Go `strings.SplitAfter(s, "/")`: split after every separator,
keeping the separator at the end of each piece; a trailing separator
yields a final empty piece. -/
def splitAfterSlash : List Nat → List (List Nat)
  | [] => [[]]
  | c :: rest =>
    if c = sepByte then [c] :: splitAfterSlash rest
    else
      match splitAfterSlash rest with
      | [] => [[c]]
      | seg :: segs => (c :: seg) :: segs

/-- One glob-matching step with explicit fuel (structural recursion, so the
kernel can evaluate it).  Models the `gobwas/glob` matcher compiled with
separator `'/'` on the subset of syntax the repository's patterns use:
literal bytes, `*` (any run of non-separator bytes), `**` (any run of any
bytes), and `?` (one non-separator byte).  Each recursive call shrinks
`p.length + s.length`, so fuel `p.length + s.length` is always enough. -/
def gmatchF : Nat → List Nat → List Nat → Bool
  | 0, p, s => p.isEmpty && s.isEmpty
  | fuel + 1, p, s =>
    match p, s with
    | [], [] => true
    | [], _ :: _ => false
    | 42 :: 42 :: ps, s =>
      gmatchF fuel ps s ||
        (match s with
         | [] => false
         | _ :: s' => gmatchF fuel (42 :: 42 :: ps) s')
    | 42 :: ps, s =>
      gmatchF fuel ps s ||
        (match s with
         | [] => false
         | c :: s' => if c = sepByte then false else gmatchF fuel (42 :: ps) s')
    | 63 :: ps, s =>
      (match s with
       | [] => false
       | c :: s' => if c = sepByte then false else gmatchF fuel ps s')
    | c :: ps, s =>
      (match s with
       | [] => false
       | d :: s' => c = d && gmatchF fuel ps s')

/-- Glob matching: `gmatch pat s` decides whether pattern `pat` matches the
byte string `s` (model of `glob.MustCompile(pat, '/').Match(s)`). -/
def gmatch (pat s : List Nat) : Bool :=
  gmatchF (pat.length + s.length) pat s

/-- The inner metacharacter scan of `newGlobPattern`: for each
metacharacter byte in order, find its first occurrence in the prefix; on a
hit, drop a trailing separator if this is the first hit overall, mark the
pattern as globbed, and truncate the prefix at the hit.  Translated from
the `for _, c := range []byte{...}` loop. -/
def scanMeta : List Nat → List Nat × Bool → List Nat × Bool
  | [], st => st
  | c :: cs, (pre, globbed) =>
    match indexByte c pre with
    | none => scanMeta cs (pre, globbed)
    | some idx =>
      let pre1 := if !globbed && pre.getLastD 0 = sepByte then pre.dropLast else pre
      scanMeta cs (pre1.take idx, true)

/-- Compiled pattern (the `GlobPattern` struct): bucket, glob-free literal
prefix (`globFreePrefix` in the source; renamed here), full-path pattern
source, per-depth matcher pattern sources and their depth tags
(`-1` = "any remaining"). -/
structure GlobPattern where
  bucket : List Nat
  litPre : List Nat
  pat : List Nat
  globs : List (List Nat)
  counts : List Int
deriving Repr, DecidableEq

/-- The main compilation loop of `newGlobPattern` over the path pieces
`dirs` (the `strings.SplitAfter` pieces).  `seen` is the concatenation of
the pieces consumed so far (`strings.Join(dirs[:i], "")`). -/
def nGPLoop : List (List Nat) → List Nat → List Nat → Bool →
    List (List Nat) → List Int → List Nat × List (List Nat) × List Int
  | [], _, pre, _, globs, counts => (pre, globs, counts)
  | dir :: rest, seen, pre, globbed, globs, counts =>
    if hasDoubleStar dir then
      (pre, globs ++ [seen ++ dir], counts ++ [-1])
    else
      let (pre1, globbed1) :=
        if globbed then (pre, globbed) else scanMeta metaBytes (pre ++ dir, globbed)
      let (globs1, counts1) :=
        if globbed1 then
          (globs ++ [seen ++ dir], counts ++ [countSlashes (seen ++ dir)])
        else (globs, counts)
      nGPLoop rest (seen ++ dir) pre1 globbed1 globs1 counts1

/-- Model of `newGlobPattern(urlArg)`: `dirs = urlArg[3:]`, bucket is
`urlArg[2]` without its trailing separator, the full-path pattern is the
joined dirs. -/
def newGlobPattern (urlArg : List (List Nat)) : GlobPattern :=
  let dirs := urlArg.drop 3
  let (pre, globs, counts) := nGPLoop dirs [] [] false [] []
  { bucket := (urlArg.getD 2 []).dropLast
    litPre := pre
    pat := dirs.flatten
    globs := globs
    counts := counts }

/-- A listed object as returned by the store (`types.Object`): key and
declared size.  Sizes are `Int` (Go `int64`). -/
structure SObj where
  key : List Nat
  size : Int
deriving Repr, DecidableEq

/-- A matched object descriptor handed to a lane (the `Object` struct). -/
structure Obj where
  bucket : List Nat
  key : List Nat
  size : Int
deriving Repr, DecidableEq

/-- The configuration fields the scheduler reads (`Args`): buffer/lane
threshold `bufferLimit` (Go `int64`) and soft download limit `limit`
(Go `uint64`, modelled as `Nat`). -/
structure Args where
  bufferLimit : Int
  limit : Nat
deriving Repr, DecidableEq

/-- The byte count an object contributes to the `uint64` download counter.
The spec declares sizes non-negative (a negative size is a
`DataIntegrityError`), so the counter is modelled as an exact `Nat`
accumulator, matching the spec's "shared monotonic byte accumulator". -/
def sizeBytes (s : Int) : Nat := s.toNat

/-- Translation of `GlobPattern.filterContents`: walk the page contents,
skip keys the full-path matcher rejects, route small objects (size
strictly below the threshold) to the pooled list and the rest to the
streamed list, add each matched object's size to the shared counter, and
break out of the loop once the counter exceeds the limit.  Returns the
two lanes' descriptor lists and the final counter. -/
def filterContents (g : GlobPattern) (a : Args) :
    List SObj → Nat → List Obj × List Obj × Nat
  | [], bytes => ([], [], bytes)
  | o :: rest, bytes =>
    if gmatch g.pat o.key then
      let b := bytes + sizeBytes o.size
      if o.size < a.bufferLimit then
        if b > a.limit then ([⟨g.bucket, o.key, o.size⟩], [], b)
        else
          let (p, s, b') := filterContents g a rest b
          (⟨g.bucket, o.key, o.size⟩ :: p, s, b')
      else
        if b > a.limit then ([], [⟨g.bucket, o.key, o.size⟩], b)
        else
          let (p, s, b') := filterContents g a rest b
          (p, ⟨g.bucket, o.key, o.size⟩ :: s, b')
    else filterContents g a rest bytes

/-- Inner loop of `filterCommonPrefixes`: for each compiled (matcher,
depth) pair, if the depth tag is the sentinel `-1` ("any remaining") or
equals the current marker depth `count`, collect the subtree markers that
matcher accepts, in matcher-major order as in the source. -/
def fcpLoop (count : Int) (cps : List (List Nat)) :
    List (List Nat × Int) → List (List Nat)
  | [] => []
  | (pat, c) :: rest =>
    (if c = -1 ∨ c = count then cps.filter (fun m => gmatch pat m) else []) ++
      fcpLoop count cps rest

/-- Translation of `GlobPattern.filterCommonPrefixes`: the depth of the
markers returned while listing under `pre` is `strings.Count(pre, "/") + 1`;
a marker is kept (and will be recursed into) when some matcher whose depth
tag equals that depth, or is "any remaining", accepts it. -/
def filterCommonPrefixes (g : GlobPattern) (cps : List (List Nat))
    (pre : List Nat) : List (List Nat) :=
  fcpLoop (countSlashes pre + 1) cps (g.globs.zip g.counts)

/-- One page of a `ListObjectsV2` reply: leaf entries, subtree markers
(`CommonPrefixes`), and the truncation flag driving pagination. -/
structure Page where
  contents : List SObj
  markers : List (List Nat)
  truncated : Bool
deriving Repr, DecidableEq

/-- The environment of a traversal run: the store collaborator (pages per
listing prefix and delimiter choice, in continuation order), the full-path
pattern, and the configuration the producer reads. -/
structure Env where
  pages : List Nat → Bool → List Page
  pat : List Nat
  bufferLimit : Int
  limit : Nat
  listOnly : Bool

/-- Observable producer events: a listing call issued for a prefix, a
descriptor dispatched to the pooled or streamed lane, a key line printed
in list-only mode. -/
inductive PEvent where
  | listCall : List Nat → PEvent
  | pooled : SObj → PEvent
  | streamed : SObj → PEvent
  | printKey : List Nat → PEvent
deriving Repr, DecidableEq

/-- Producer state: the shared byte counter and the trace of events so
far, oldest first. -/
structure PState where
  bytes : Nat
  trace : List PEvent
deriving Repr, DecidableEq

/-- Append one event to the trace. -/
def pushE (st : PState) (e : PEvent) : PState :=
  { st with trace := st.trace ++ [e] }

/-- The leaf branch of `walk_page` (`len(globs) <= 1`): for each listed
object whose key the full-path matcher accepts, either print the key
(list-only mode) or dispatch it to a lane by the size threshold and grow
the counter; once the counter exceeds the limit return `false`, which
makes the caller stop paginating this branch (`return nil, false`). -/
def processContents (env : Env) : List SObj → PState → PState × Bool
  | [], st => (st, true)
  | o :: rest, st =>
    if gmatch env.pat o.key then
      if env.listOnly then
        processContents env rest (pushE st (.printKey o.key))
      else
        let st1 :=
          if o.size < env.bufferLimit then pushE st (.pooled o)
          else pushE st (.streamed o)
        let st2 := { st1 with bytes := st1.bytes + sizeBytes o.size }
        if st2.bytes > env.limit then (st2, false)
        else processContents env rest st2
    else processContents env rest st

/-- A pending traversal task: paginate a prefix (the body of `produce` /
`walk_page`) or scan a page's subtree markers (the `CommonPrefixes` loop
of `walk_page`). -/
inductive WalkTask where
  | pages : List (List Nat) → List Nat → List Page → WalkTask
  | cps : List (List Nat) → List (List Nat) → WalkTask

/-- The traversal interpreter, translated from `produce` and `walk_page`:

* `.pages globs pre pages`: issue one listing call per page.  At the leaf
  level (`globs.length ≤ 1`) process the page contents and continue to
  the next page only if the page is truncated and the limit was not
  exceeded.  Above the leaf level scan the page's subtree markers, then
  continue pagination if truncated.
* `.cps globs ms`: for each marker accepted by the head matcher
  (`globs[0].Match(prefix)`), recurse into that subtree with the
  remaining matcher list (`p.produce(prefix, globs[1:])`), listing it with
  a delimiter exactly when more than one matcher remains.

`fuel` is a structural-recursion bound; every theorem below either holds
for all fuel values or is evaluated at a concrete, sufficient one. -/
def walk (env : Env) : Nat → WalkTask → PState → PState
  | 0, _, st => st
  | _ + 1, .pages _ _ [], st => st
  | fuel + 1, .pages globs pre (page :: rest), st =>
    let st := pushE st (.listCall pre)
    if globs.length ≤ 1 then
      match processContents env page.contents st with
      | (st', true) =>
        if page.truncated then walk env fuel (.pages globs pre rest) st' else st'
      | (st', false) => st'
    else
      let st' := walk env fuel (.cps globs page.markers) st
      if page.truncated then walk env fuel (.pages globs pre rest) st' else st'
  | _ + 1, .cps _ [], st => st
  | fuel + 1, .cps globs (m :: ms), st =>
    let st' :=
      if gmatch (globs.headD []) m then
        walk env fuel (.pages globs.tail m (env.pages m (globs.tail.length > 1))) st
      else st
    walk env fuel (.cps globs ms) st'

/-- A full producer run (`produce(args, globPattern, s3Client)`): start at
the literal prefix with the compiled matcher list and an empty state. -/
def runProduce (env : Env) (g : GlobPattern) (fuel : Nat) : PState :=
  walk env fuel
    (.pages g.globs g.litPre (env.pages g.litPre (g.globs.length > 1)))
    ⟨0, []⟩

/-- The completion status derived in `Run`: exit code 1 exactly when the
final counter exceeds the limit (`os.Exit(1)`), else 0. -/
def runStatus (bytes limit : Nat) : Nat :=
  if bytes > limit then 1 else 0

/-! ## Content decoder (`logContent` sniffing) -/

/-- The gzip magic bytes checked by `logContent`
(`var gzipMagic = []byte{0x1f, 0x8b, 0x08}`). -/
def gzipMagic : List Nat := [31, 139, 8]

/-- The zstd frame magic checked by `logContent`
(`var zstdMagic = []byte{0x28, 0xb5, 0x2f, 0xfd}`). -/
def zstdMagic : List Nat := [40, 181, 47, 253]

/-- The format selected by the sniffer. -/
inductive Format where
  | zstd
  | gzip
  | identity
deriving Repr, DecidableEq

/-- The classification performed by `logContent` on the peeked head:
`head := Peek(4)`; a full 4-byte match of the zstd magic selects zstd,
else a match of the gzip magic on the first 3 of at least 3 peeked bytes
selects gzip, else the bytes pass through. -/
def classify (bs : List Nat) : Format :=
  let head := bs.take 4
  if head.length = 4 ∧ head = zstdMagic then .zstd
  else if 3 ≤ head.length ∧ head.take 3 = gzipMagic then .gzip
  else .identity

/-- Decoding as `logContent` performs it: the peeked bytes are replayed, so
the selected decompressor consumes the whole stream.  The decompressors
themselves are external library collaborators, passed in as functions;
`none` is a decompressor failure, which `logContent` treats as fatal
(`log.Fatalf`), modelled as overall result `none`. -/
def decodeWith (gunzip unzstd : List Nat → Option (List Nat))
    (bs : List Nat) : Option (List Nat) :=
  match classify bs with
  | .zstd => unzstd bs
  | .gzip => gunzip bs
  | .identity => some bs

/-! ## Output writer (`copyBuffer` of `cmd/cpdash/main.go`) -/

/-- The chunked copy loop of `copyBuffer`: each read chunk is written
unmodified; `last` tracks the final byte of the most recent non-empty
chunk (initially the zero byte).  Returns the written bytes and the final
`last`. -/
def cbLoop : List (List Nat) → Nat → List Nat × Nat
  | [], last => ([], last)
  | ch :: rest, last =>
    let last' := if ch.isEmpty then last else ch.getLastD 0
    let (w, l) := cbLoop rest last'
    (ch ++ w, l)

/-- Translation of `copyBuffer(dst, src)`: copy all chunks, then append a
newline byte (10) exactly when the last byte written is not already a
newline. -/
def copyBuffer (chunks : List (List Nat)) : List Nat :=
  let (w, last) := cbLoop chunks 0
  w ++ (if last = 10 then [] else [10])

/-! ## Worker pool admission (`Run` + `consume`) -/

/-- Model of `golang.org/x/sync/semaphore.Weighted` admission: with total
capacity `cap` and `cur` units currently held, `Acquire(n)` can be
granted exactly when `cur + n ≤ cap`.  (An `n` exceeding `cap` can never
be granted from any state.) -/
def semAcquireOk (cap cur n : Int) : Bool :=
  cur + n ≤ cap

/-- The oversized-object guard at the head of the pooled worker loop
(`consume`): `if size > bufferLimit { log.Fatalf(...) }` — `true` means
the run aborts fatally. -/
def consumeSizeCheck (size bufferLimit : Int) : Bool :=
  size > bufferLimit

/-! ## Output serialization (`logContent` under the writer mutex)

`logContent` takes the single output mutex, writes the optional key
header and then the object's content chunks, and releases the mutex on
return.  Two concurrently processed objects are modelled as two event
sequences executed by an explicit scheduler over the shared mutex. -/

/-- Events of a writer thread: take the output mutex, write a chunk of
bytes for an object, release the mutex. -/
inductive WEvent where
  | lock : Nat → WEvent
  | unlock : Nat → WEvent
  | write : Nat → List Nat → WEvent
deriving Repr, DecidableEq

/-- Mutex transition: a lock succeeds only when free; an unlock only by
the holder; writes do not change the mutex. `none` means the thread would
block (or the step is impossible). -/
def mutexStep : Option Nat → WEvent → Option (Option Nat)
  | none, .lock o => some (some o)
  | some _, .lock _ => none
  | some h, .unlock o => if h = o then some none else none
  | none, .unlock _ => none
  | h, .write _ _ => some h

/-- The event sequence `logContent` emits for one object: acquire the
mutex (`mu.Lock()`), write the key header line when key echo is enabled,
write the content chunks, release the mutex (`defer mu.Unlock()`). -/
def logContentEvents (id : Nat) (keys : Bool) (hdr : List Nat)
    (chunks : List (List Nat)) : List WEvent :=
  .lock id ::
    ((if keys then [hdr] else []) ++ chunks).map (.write id ·) ++
    [.unlock id]

/-- Two-thread scheduler semantics: `sched` picks which thread performs
its next event (`true` = first thread); a step is possible only if that
thread has an event left and the mutex admits it (a blocked thread is
simply not scheduled).  Returns the global event order, or `none` for
schedules that block or end early. -/
def exec2 : List Bool → Option Nat → List WEvent → List WEvent →
    Option (List WEvent)
  | [], _, [], [] => some []
  | [], _, _, _ => none
  | pick :: sched, h, ra, rb =>
    if pick then
      match ra with
      | [] => none
      | e :: ra' =>
        match mutexStep h e with
        | none => none
        | some h' => (exec2 sched h' ra' rb).map (e :: ·)
    else
      match rb with
      | [] => none
      | e :: rb' =>
        match mutexStep h e with
        | none => none
        | some h' => (exec2 sched h' ra rb').map (e :: ·)

/-- The bytes an event trace delivers to the output sink, in order. -/
def sinkWrites : List WEvent → List (List Nat)
  | [] => []
  | .write _ bs :: rest => bs :: sinkWrites rest
  | _ :: rest => sinkWrites rest

/-! ## Helpers for claim statements -/

/-- Test that the byte string `q` extends (starts with) `p` — used to
state that listing prefixes never get shorter than the literal prefix. -/
def leadsUpTo (p q : List Nat) : Bool :=
  p == q.take p.length

/-- The listing calls issued strictly after the running byte counter (re-
played from the trace) exceeded the limit. -/
def callsAfterTrip (limit : Nat) : List PEvent → Nat → List (List Nat)
  | [], _ => []
  | e :: rest, b =>
    let b' := match e with
      | .pooled o => b + sizeBytes o.size
      | .streamed o => b + sizeBytes o.size
      | _ => b
    (if b > limit then
       match e with
       | .listCall p => [p]
       | _ => []
     else []) ++ callsAfterTrip limit rest b'

/-- The pooled-lane descriptors of a producer trace. -/
def pooledOf : List PEvent → List SObj
  | [] => []
  | .pooled o :: rest => o :: pooledOf rest
  | _ :: rest => pooledOf rest

/-- The streamed-lane descriptors of a producer trace. -/
def streamedOf : List PEvent → List SObj
  | [] => []
  | .streamed o :: rest => o :: streamedOf rest
  | _ :: rest => streamedOf rest

/-- The key lines printed by a producer trace. -/
def printedOf : List PEvent → List (List Nat)
  | [] => []
  | .printKey k :: rest => k :: printedOf rest
  | _ :: rest => printedOf rest

/-! ## Decoder lemmas -/

theorem classify_zstd {bs : List Nat} (h : bs.take 4 = zstdMagic) :
    classify bs = .zstd := by
  simp only [classify, h]
  decide

theorem take_three_of_take_four (bs : List Nat) :
    (bs.take 4).take 3 = bs.take 3 := by
  rw [List.take_take]
  norm_num

theorem classify_gzip {bs : List Nat} (h : bs.take 3 = gzipMagic) :
    classify bs = .gzip := by
  have h3 : (bs.take 3).length = 3 := by rw [h]; rfl
  have hlen : 3 ≤ bs.length := by
    have := bs.length_take 3
    omega
  have hz : bs.take 4 ≠ zstdMagic := by
    intro hz
    have : (bs.take 4).take 3 = zstdMagic.take 3 := by rw [hz]
    rw [take_three_of_take_four, h] at this
    simp [gzipMagic, zstdMagic] at this
  have hz' : ¬((bs.take 4).length = 4 ∧ bs.take 4 = zstdMagic) := by
    intro ⟨_, h2⟩; exact hz h2
  have hlen4 : 3 ≤ (bs.take 4).length := by
    have := bs.length_take 4
    omega
  simp only [classify]
  rw [if_neg hz', if_pos ⟨hlen4, by rw [take_three_of_take_four, h]⟩]

theorem classify_other {bs : List Nat} (h4 : bs.take 4 ≠ zstdMagic)
    (h3 : bs.take 3 ≠ gzipMagic) : classify bs = .identity := by
  simp only [classify]
  rw [if_neg (by intro ⟨_, h⟩; exact h4 h),
    if_neg (by intro ⟨_, h⟩; rw [take_three_of_take_four] at h; exact h3 h)]

theorem classify_short {bs : List Nat} (h : bs.length < 3) :
    classify bs = .identity := by
  apply classify_other
  · intro hz
    have : (bs.take 4).length = 4 := by rw [hz]; rfl
    have := bs.length_take 4
    omega
  · intro hg
    have : (bs.take 3).length = 3 := by rw [hg]; rfl
    have := bs.length_take 3
    omega

/-- Claim C3: For every input byte stream the decoder classifies by the first
at-most-4 bytes, in this order: a 4-byte zstd magic match selects the zstd
decompressor, else a 3-byte gzip magic match selects the gzip
decompressor, else the original bytes pass through unchanged; and every
stream shorter than 3 bytes always passes through unchanged. -/
theorem claim3_decoder_classification
    (gz zs : List Nat → Option (List Nat)) (bs : List Nat) :
    decodeWith gz zs bs =
      (if bs.take 4 = zstdMagic then zs bs
       else if bs.take 3 = gzipMagic then gz bs
       else some bs) ∧
    (bs.length < 3 → decodeWith gz zs bs = some bs) := by
  constructor
  · by_cases hz : bs.take 4 = zstdMagic
    · rw [if_pos hz]
      simp [decodeWith, classify_zstd hz]
    · rw [if_neg hz]
      by_cases hg : bs.take 3 = gzipMagic
      · rw [if_pos hg]
        simp [decodeWith, classify_gzip hg]
      · rw [if_neg hg]
        simp [decodeWith, classify_other hz hg]
  · intro hlen
    simp [decodeWith, classify_short hlen]

/-- Witness for C3 at concrete inputs: a zstd-magic stream is routed to the
zstd decompressor, and the two-byte stream `[31, 139]` passes through
unchanged. -/
theorem claim3_decoder_classification_witness :
    decodeWith (fun _ => none) (fun bs => some bs.tail) [40, 181, 47, 253, 7] =
        some [181, 47, 253, 7] ∧
    decodeWith (fun _ => none) (fun _ => none) [31, 139] = some [31, 139] := by
  refine ⟨?_, ?_⟩
  · have h := (claim3_decoder_classification (fun _ => none)
      (fun bs => some bs.tail) [40, 181, 47, 253, 7]).1
    rw [h]; decide
  · exact (claim3_decoder_classification (fun _ => none)
      (fun _ => none) [31, 139]).2 (by decide)

/-- Claim C4: Round-trip through the decoder: if a compressed stream carries
the matching magic and the library decompressor inverts it, the decoder
returns exactly the original payload (this includes the empty payload);
and a decompressor failure after a magic match is fatal (overall result
`none`). -/
theorem claim4_roundtrip_and_fatal_failure
    (gz zs : List Nat → Option (List Nat)) :
    (∀ X czs, czs.take 4 = zstdMagic → zs czs = some X →
        decodeWith gz zs czs = some X) ∧
    (∀ X cgz, cgz.take 3 = gzipMagic → gz cgz = some X →
        decodeWith gz zs cgz = some X) ∧
    (∀ bs, bs.take 4 = zstdMagic → zs bs = none →
        decodeWith gz zs bs = none) ∧
    (∀ bs, bs.take 3 = gzipMagic → gz bs = none →
        decodeWith gz zs bs = none) := by
  refine ⟨?_, ?_, ?_, ?_⟩
  · intro X czs hm hd
    simp [decodeWith, classify_zstd hm, hd]
  · intro X cgz hm hd
    simp [decodeWith, classify_gzip hm, hd]
  · intro bs hm hd
    simp [decodeWith, classify_zstd hm, hd]
  · intro bs hm hd
    simp [decodeWith, classify_gzip hm, hd]

/-- Witness for C4 with a concrete magic-prefixing codec, exercising the
empty payload for both formats, a non-empty gzip payload, and a fatal
zstd decompressor failure. -/
theorem claim4_roundtrip_and_fatal_failure_witness :
    decodeWith (fun bs => some (bs.drop 3)) (fun bs => some (bs.drop 4))
        (zstdMagic ++ []) = some [] ∧
    decodeWith (fun bs => some (bs.drop 3)) (fun bs => some (bs.drop 4))
        (gzipMagic ++ []) = some [] ∧
    decodeWith (fun bs => some (bs.drop 3)) (fun bs => some (bs.drop 4))
        (gzipMagic ++ [104, 105]) = some [104, 105] ∧
    decodeWith (fun bs => some (bs.drop 3)) (fun _ => none)
        (zstdMagic ++ [0]) = none := by
  refine ⟨?_, ?_, ?_, ?_⟩
  · exact (claim4_roundtrip_and_fatal_failure _ _).1 [] (zstdMagic ++ [])
      (by decide) (by decide)
  · exact (claim4_roundtrip_and_fatal_failure _ _).2.1 [] (gzipMagic ++ [])
      (by decide) (by decide)
  · exact (claim4_roundtrip_and_fatal_failure _ _).2.1 [104, 105]
      (gzipMagic ++ [104, 105]) (by decide) (by decide)
  · exact (claim4_roundtrip_and_fatal_failure _ _).2.2.1 (zstdMagic ++ [0])
      (by decide) rfl

/-! ## Output writer lemmas (C9) -/

theorem cbLoop_spec (chunks : List (List Nat)) (last : Nat) :
    cbLoop chunks last =
      (chunks.flatten,
       if chunks.flatten.isEmpty then last else chunks.flatten.getLastD 0) := by
  induction chunks generalizing last with
  | nil => simp [cbLoop]
  | cons ch rest ih =>
    simp only [cbLoop, ih]
    cases hch : ch with
    | nil => simp
    | cons a as =>
      cases hr : rest.flatten with
      | nil =>
        simp [List.flatten_cons, hr, List.getLastD_eq_getLast?, List.getLast?_cons]
      | cons b bs =>
        simp [List.flatten_cons, hr, List.getLastD_eq_getLast?, List.getLast?_cons]

/-- Claim C9: the function `copyBuffer` writes the content bytes unmodified and appends a
trailing newline exactly when the content does not already end in a
newline byte (an empty content, whose `getLastD 0` is the zero byte, does
not end in a newline and gets one appended). -/
theorem claim9_trailing_newline (chunks : List (List Nat)) :
    copyBuffer chunks =
      chunks.flatten ++
        (if chunks.flatten.getLastD 0 = 10 then [] else [10]) ∧
    (copyBuffer chunks).take chunks.flatten.length = chunks.flatten := by
  have hmain : copyBuffer chunks =
      chunks.flatten ++
        (if chunks.flatten.getLastD 0 = 10 then [] else [10]) := by
    unfold copyBuffer
    rw [cbLoop_spec]
    cases h : chunks.flatten with
    | nil => simp
    | cons a as => simp
  refine ⟨hmain, ?_⟩
  rw [hmain, List.take_left]

/-! ## Scheduler routing lemmas (C1) -/

theorem filterContents_bytes_le (g : GlobPattern) (a : Args) :
    ∀ (cts : List SObj) (b0 : Nat), b0 ≤ (filterContents g a cts b0).2.2 := by
  intro cts
  induction cts with
  | nil => intro b0; simp [filterContents]
  | cons o rest ih =>
    intro b0
    simp only [filterContents]
    by_cases hm : gmatch g.pat o.key
    · simp only [hm, if_true]
      by_cases hs : o.size < a.bufferLimit
      · simp only [hs, if_true]
        by_cases hl : b0 + sizeBytes o.size > a.limit
        · simp [hl]
        · simp only [hl, if_false]
          have := ih (b0 + sizeBytes o.size)
          rcases hrec : filterContents g a rest (b0 + sizeBytes o.size) with ⟨p', s', b'⟩
          rw [hrec] at this
          simp at this
          simp [hrec]
          omega
      · simp only [hs, if_false]
        by_cases hl : b0 + sizeBytes o.size > a.limit
        · simp [hl]
        · simp only [hl, if_false]
          have := ih (b0 + sizeBytes o.size)
          rcases hrec : filterContents g a rest (b0 + sizeBytes o.size) with ⟨p', s', b'⟩
          rw [hrec] at this
          simp at this
          simp [hrec]
          omega
    · simp only [hm, if_false]
      exact ih b0

/-- The lane an object belongs to, and the matched set, as the claim
describes them. -/
def smallMatch (g : GlobPattern) (a : Args) (o : SObj) : Bool :=
  gmatch g.pat o.key && decide (o.size < a.bufferLimit)

def bigMatch (g : GlobPattern) (a : Args) (o : SObj) : Bool :=
  gmatch g.pat o.key && !decide (o.size < a.bufferLimit)

/-- Claim C1, amended: Lane routing of `filterContents`: every pooled
descriptor is matched and strictly below the threshold, every streamed
descriptor is matched and at least the threshold (so each descriptor goes
to exactly one lane, chosen solely by size); and — provided the byte
counter never exceeded the limit — the pooled and streamed lists together
are exactly the matched listed objects, partitioned by the threshold. -/
theorem claim1_lane_routing_and_union (g : GlobPattern) (a : Args) :
    ∀ (cts : List SObj) (b0 : Nat) (p s : List Obj) (bf : Nat),
      filterContents g a cts b0 = (p, s, bf) →
      ((∀ o ∈ p, gmatch g.pat o.key = true ∧ o.size < a.bufferLimit) ∧
       (∀ o ∈ s, gmatch g.pat o.key = true ∧ ¬ o.size < a.bufferLimit) ∧
       (bf ≤ a.limit →
         p = (cts.filter (smallMatch g a)).map (fun o => ⟨g.bucket, o.key, o.size⟩) ∧
         s = (cts.filter (bigMatch g a)).map (fun o => ⟨g.bucket, o.key, o.size⟩))) := by
  intro cts
  induction cts with
  | nil =>
    intro b0 p s bf h
    simp only [filterContents, Prod.mk.injEq] at h
    obtain ⟨rfl, rfl, rfl⟩ := h
    exact ⟨by simp, by simp, fun _ => ⟨by simp, by simp⟩⟩
  | cons o rest ih =>
    intro b0 p s bf h
    simp only [filterContents] at h
    by_cases hm : gmatch g.pat o.key
    · rw [if_pos hm] at h
      by_cases hsz : o.size < a.bufferLimit
      · rw [if_pos hsz] at h
        by_cases hl : b0 + sizeBytes o.size > a.limit
        · rw [if_pos hl] at h
          simp only [Prod.mk.injEq] at h
          obtain ⟨rfl, rfl, rfl⟩ := h
          exact ⟨by simp [hm, hsz], by simp, fun hle => absurd hle (by omega)⟩
        · rw [if_neg hl] at h
          rcases hrec : filterContents g a rest (b0 + sizeBytes o.size) with ⟨p', s', b'⟩
          rw [hrec] at h
          simp only [Prod.mk.injEq] at h
          obtain ⟨rfl, rfl, rfl⟩ := h
          obtain ⟨ihp, ihs, ihu⟩ := ih _ _ _ _ hrec
          refine ⟨?_, ihs, ?_⟩
          · intro o' ho'
            rcases List.mem_cons.mp ho' with rfl | ho'
            · exact ⟨hm, hsz⟩
            · exact ihp o' ho'
          · intro hle
            obtain ⟨hu1, hu2⟩ := ihu hle
            constructor
            · simp [List.filter_cons, smallMatch, hm, hsz, hu1]
            · simp [List.filter_cons, bigMatch, hm, hsz, hu2]
      · rw [if_neg hsz] at h
        by_cases hl : b0 + sizeBytes o.size > a.limit
        · rw [if_pos hl] at h
          simp only [Prod.mk.injEq] at h
          obtain ⟨rfl, rfl, rfl⟩ := h
          exact ⟨by simp, by simp [hm]; omega, fun hle => absurd hle (by omega)⟩
        · rw [if_neg hl] at h
          rcases hrec : filterContents g a rest (b0 + sizeBytes o.size) with ⟨p', s', b'⟩
          rw [hrec] at h
          simp only [Prod.mk.injEq] at h
          obtain ⟨rfl, rfl, rfl⟩ := h
          obtain ⟨ihp, ihs, ihu⟩ := ih _ _ _ _ hrec
          refine ⟨ihp, ?_, ?_⟩
          · intro o' ho'
            rcases List.mem_cons.mp ho' with rfl | ho'
            · exact ⟨hm, hsz⟩
            · exact ihs o' ho'
          · intro hle
            obtain ⟨hu1, hu2⟩ := ihu hle
            constructor
            · simp [List.filter_cons, smallMatch, hm, hsz, hu1]
            · simp [List.filter_cons, bigMatch, hm, hsz, hu2]
    · rw [if_neg hm] at h
      obtain ⟨ihp, ihs, ihu⟩ := ih _ _ _ _ h
      refine ⟨ihp, ihs, ?_⟩
      intro hle
      obtain ⟨hu1, hu2⟩ := ihu hle
      constructor
      · simp [List.filter_cons, smallMatch, hm, hu1]
      · simp [List.filter_cons, bigMatch, hm, hu2]

/-- Compiled pattern for `s3://b/a/**` (bucket `b`, pattern `a/**`). -/
def exGlob : GlobPattern :=
  newGlobPattern [[115], [47], [98, 47], [97, 47], [42, 42]]

/-- A listed page: objects `a/x` (5 bytes) and `a/y` (7 bytes), both of
which the full-path matcher `a/**` accepts. -/
def exContents : List SObj := [⟨[97, 47, 120], 5⟩, ⟨[97, 47, 121], 7⟩]

/-- Counterexample to claim C1 as stated: With download limit 4 the first matched object
(5 bytes) pushes the counter over the limit and the loop breaks, so the
second matched listed object `a/y` is dispatched to no lane: the union of
the two lanes is not the set of matched listed objects, refuting the
claim as stated. -/
theorem claim1_counterexample :
    (filterContents exGlob ⟨100, 4⟩ exContents 0).1 ++
        (filterContents exGlob ⟨100, 4⟩ exContents 0).2.1 ≠
      (exContents.filter fun o => gmatch exGlob.pat o.key).map
        (fun o => ⟨exGlob.bucket, o.key, o.size⟩) := by
  decide

/-- Witness for the amended C1 at a concrete input with threshold 6 and
limit 1000 (no trip): `a/x` is pooled, `a/y` is streamed, and the two
lanes together are exactly the matched objects. -/
theorem claim1_lane_routing_and_union_witness :
    (∀ o ∈ (filterContents exGlob ⟨6, 1000⟩ exContents 0).1,
        gmatch exGlob.pat o.key = true ∧ o.size < (6 : Int)) ∧
    (∀ o ∈ (filterContents exGlob ⟨6, 1000⟩ exContents 0).2.1,
        gmatch exGlob.pat o.key = true ∧ ¬ o.size < (6 : Int)) ∧
    ((filterContents exGlob ⟨6, 1000⟩ exContents 0).2.2 ≤ 1000 →
      (filterContents exGlob ⟨6, 1000⟩ exContents 0).1 =
          (exContents.filter (smallMatch exGlob ⟨6, 1000⟩)).map
            (fun o => ⟨exGlob.bucket, o.key, o.size⟩) ∧
      (filterContents exGlob ⟨6, 1000⟩ exContents 0).2.1 =
          (exContents.filter (bigMatch exGlob ⟨6, 1000⟩)).map
            (fun o => ⟨exGlob.bucket, o.key, o.size⟩)) :=
  claim1_lane_routing_and_union exGlob ⟨6, 1000⟩ exContents 0 _ _ _ rfl

/-! ## Output serialization lemmas (C5) -/

theorem exec2_solo_right :
    ∀ (sched : List Bool) (h : Option Nat) (rb t : List WEvent),
      exec2 sched h [] rb = some t → t = rb := by
  intro sched
  induction sched with
  | nil =>
    intro h rb t hx
    cases rb with
    | nil => simp [exec2] at hx; exact hx
    | cons e rb' => simp [exec2] at hx
  | cons pick sched ih =>
    intro h rb t hx
    cases pick with
    | true => simp [exec2] at hx
    | false =>
      cases rb with
      | nil => simp [exec2] at hx
      | cons e rb' =>
        cases hms : mutexStep h e with
        | none => simp [exec2, hms] at hx
        | some h' =>
          simp [exec2, hms] at hx
          obtain ⟨t', hrec, ht⟩ := hx
          rw [← ht, ih h' rb' t' hrec]

theorem exec2_solo_left :
    ∀ (sched : List Bool) (h : Option Nat) (ra t : List WEvent),
      exec2 sched h ra [] = some t → t = ra := by
  intro sched
  induction sched with
  | nil =>
    intro h ra t hx
    cases ra with
    | nil => simp [exec2] at hx; exact hx
    | cons e ra' => simp [exec2] at hx
  | cons pick sched ih =>
    intro h ra t hx
    cases pick with
    | false => simp [exec2] at hx
    | true =>
      cases ra with
      | nil => simp [exec2] at hx
      | cons e ra' =>
        cases hms : mutexStep h e with
        | none => simp [exec2, hms] at hx
        | some h' =>
          simp [exec2, hms] at hx
          obtain ⟨t', hrec, ht⟩ := hx
          rw [← ht, ih h' ra' t' hrec]

theorem exec2_locked_left :
    ∀ (sched : List Bool) (ws : List (List Nat)) (a : Nat) (b : Nat)
      (rb t : List WEvent),
      exec2 sched (some a) (ws.map (WEvent.write a) ++ [WEvent.unlock a])
          (WEvent.lock b :: rb) = some t →
      t = ws.map (WEvent.write a) ++ [WEvent.unlock a] ++ WEvent.lock b :: rb := by
  intro sched
  induction sched with
  | nil =>
    intro ws a b rb t hx
    cases ws <;> simp [exec2] at hx
  | cons pick sched ih =>
    intro ws a b rb t hx
    cases pick with
    | false =>
      simp [exec2, mutexStep] at hx
    | true =>
      cases ws with
      | nil =>
        simp [exec2, mutexStep] at hx
        obtain ⟨t', hrec, ht⟩ := hx
        rw [← ht, exec2_solo_right sched none _ t' hrec]
        simp
      | cons w ws' =>
        simp [exec2, mutexStep] at hx
        obtain ⟨t', hrec, ht⟩ := hx
        rw [← ht, ih ws' a b rb t' hrec]
        simp

theorem exec2_locked_right :
    ∀ (sched : List Bool) (ws : List (List Nat)) (b : Nat) (a : Nat)
      (ra t : List WEvent),
      exec2 sched (some b) (WEvent.lock a :: ra)
          (ws.map (WEvent.write b) ++ [WEvent.unlock b]) = some t →
      t = ws.map (WEvent.write b) ++ [WEvent.unlock b] ++ WEvent.lock a :: ra := by
  intro sched
  induction sched with
  | nil =>
    intro ws b a ra t hx
    cases ws <;> simp [exec2] at hx
  | cons pick sched ih =>
    intro ws b a ra t hx
    cases pick with
    | true =>
      simp [exec2, mutexStep] at hx
    | false =>
      cases ws with
      | nil =>
        simp [exec2, mutexStep] at hx
        obtain ⟨t', hrec, ht⟩ := hx
        rw [← ht, exec2_solo_left sched none _ t' hrec]
        simp
      | cons w ws' =>
        simp [exec2, mutexStep] at hx
        obtain ⟨t', hrec, ht⟩ := hx
        rw [← ht, ih ws' b a ra t' hrec]
        simp

theorem sinkWrites_append (t1 t2 : List WEvent) :
    sinkWrites (t1 ++ t2) = sinkWrites t1 ++ sinkWrites t2 := by
  induction t1 with
  | nil => simp [sinkWrites]
  | cons e t1 ih =>
    cases e <;> simp [sinkWrites, ih]

theorem sinkWrites_map_write (id : Nat) (ws : List (List Nat)) :
    sinkWrites (ws.map (WEvent.write id)) = ws := by
  induction ws with
  | nil => simp [sinkWrites]
  | cons w ws ih => simp [sinkWrites, ih]

theorem sinkWrites_logContentEvents (id : Nat) (keys : Bool)
    (hdr : List Nat) (chunks : List (List Nat)) :
    sinkWrites (logContentEvents id keys hdr chunks) =
      (if keys then [hdr] else []) ++ chunks := by
  simp [logContentEvents, sinkWrites, sinkWrites_append, sinkWrites_map_write]

/-- Claim C5: Under the single output mutex taken by `logContent`, every
successful interleaved execution of two objects' writer sequences is one
whole sequence followed by the other: the output sink receives all of A's
bytes then all of B's, or the reverse — never interleaved. -/
theorem claim5_no_interleaving
    (idA idB : Nat) (keysA keysB : Bool) (hdrA hdrB : List Nat)
    (chA chB : List (List Nat)) (sched : List Bool) (t : List WEvent)
    (hx : exec2 sched none (logContentEvents idA keysA hdrA chA)
        (logContentEvents idB keysB hdrB chB) = some t) :
    (t = logContentEvents idA keysA hdrA chA ++
          logContentEvents idB keysB hdrB chB ∨
     t = logContentEvents idB keysB hdrB chB ++
          logContentEvents idA keysA hdrA chA) ∧
    (sinkWrites t =
        ((if keysA then [hdrA] else []) ++ chA) ++
          ((if keysB then [hdrB] else []) ++ chB) ∨
     sinkWrites t =
        ((if keysB then [hdrB] else []) ++ chB) ++
          ((if keysA then [hdrA] else []) ++ chA)) := by
  have hmain : t = logContentEvents idA keysA hdrA chA ++
        logContentEvents idB keysB hdrB chB ∨
      t = logContentEvents idB keysB hdrB chB ++
        logContentEvents idA keysA hdrA chA := by
    cases sched with
    | nil => simp [exec2, logContentEvents] at hx
    | cons pick sched' =>
      cases pick with
      | true =>
        simp only [logContentEvents] at hx
        simp [exec2, mutexStep] at hx
        obtain ⟨t', hrec, ht⟩ := hx
        have hshape :
            List.map (fun x => WEvent.write idA x)
                (if keysA = true then [hdrA] else []) ++
              (List.map (fun x => WEvent.write idA x) chA ++
                [WEvent.unlock idA]) =
            List.map (WEvent.write idA)
                ((if keysA = true then [hdrA] else []) ++ chA) ++
              [WEvent.unlock idA] := by
          rw [List.map_append, List.append_assoc]
        rw [hshape] at hrec
        left
        rw [← ht, exec2_locked_left sched' _ idA idB _ t' hrec]
        simp [logContentEvents]
      | false =>
        simp only [logContentEvents] at hx
        simp [exec2, mutexStep] at hx
        obtain ⟨t', hrec, ht⟩ := hx
        have hshape :
            List.map (fun x => WEvent.write idB x)
                (if keysB = true then [hdrB] else []) ++
              (List.map (fun x => WEvent.write idB x) chB ++
                [WEvent.unlock idB]) =
            List.map (WEvent.write idB)
                ((if keysB = true then [hdrB] else []) ++ chB) ++
              [WEvent.unlock idB] := by
          rw [List.map_append, List.append_assoc]
        rw [hshape] at hrec
        have hshape2 :
            WEvent.lock idA ::
              (List.map (fun x => WEvent.write idA x)
                  (if keysA = true then [hdrA] else []) ++
                (List.map (fun x => WEvent.write idA x) chA ++
                  [WEvent.unlock idA])) =
            WEvent.lock idA ::
              (List.map (WEvent.write idA)
                  ((if keysA = true then [hdrA] else []) ++ chA) ++
                [WEvent.unlock idA]) := by
          rw [List.map_append, List.append_assoc]
        rw [hshape2] at hrec
        right
        rw [← ht, exec2_locked_right sched' _ idB idA _ t' hrec]
        simp [logContentEvents]
  refine ⟨hmain, ?_⟩
  rcases hmain with h | h <;>
    rw [h, sinkWrites_append, sinkWrites_logContentEvents,
      sinkWrites_logContentEvents]
  · left; rfl
  · right; rfl

/-- Witness for C5: a concrete schedule interleaving two writers (A with
key echo and two content chunks, B with one chunk) yields exactly
A's whole sequence followed by B's. -/
theorem claim5_no_interleaving_witness :
    (logContentEvents 0 true [104] [[1, 2]] ++ logContentEvents 1 false [] [[3]] =
        logContentEvents 0 true [104] [[1, 2]] ++
          logContentEvents 1 false [] [[3]] ∨
     logContentEvents 0 true [104] [[1, 2]] ++ logContentEvents 1 false [] [[3]] =
        logContentEvents 1 false [] [[3]] ++
          logContentEvents 0 true [104] [[1, 2]]) ∧
    (sinkWrites (logContentEvents 0 true [104] [[1, 2]] ++
          logContentEvents 1 false [] [[3]]) =
        ([[104]] ++ [[1, 2]]) ++ ([] ++ [[3]]) ∨
     sinkWrites (logContentEvents 0 true [104] [[1, 2]] ++
          logContentEvents 1 false [] [[3]]) =
        ([] ++ [[3]]) ++ ([[104]] ++ [[1, 2]])) :=
  claim5_no_interleaving 0 1 true false [104] [] [[1, 2]] [[3]]
    [true, true, true, true, false, false, false] _ (by decide)

/-! ## Traversal invariants -/

theorem pooledOf_append (t1 t2 : List PEvent) :
    pooledOf (t1 ++ t2) = pooledOf t1 ++ pooledOf t2 := by
  induction t1 with
  | nil => simp [pooledOf]
  | cons e t1 ih => cases e <;> simp [pooledOf, ih]

theorem streamedOf_append (t1 t2 : List PEvent) :
    streamedOf (t1 ++ t2) = streamedOf t1 ++ streamedOf t2 := by
  induction t1 with
  | nil => simp [streamedOf]
  | cons e t1 ih => cases e <;> simp [streamedOf, ih]

theorem printedOf_append (t1 t2 : List PEvent) :
    printedOf (t1 ++ t2) = printedOf t1 ++ printedOf t2 := by
  induction t1 with
  | nil => simp [printedOf]
  | cons e t1 ih => cases e <;> simp [printedOf, ih]

/-- A state property preserved by every atomic step `walk` performs: by
recording a listing call, and by processing one page's contents. -/
def StepInv (env : Env) (P : PState → Prop) : Prop :=
  (∀ st pre, P st → P (pushE st (.listCall pre))) ∧
  (∀ st cts, P st → P (processContents env cts st).1)

theorem walk_inv (env : Env) (P : PState → Prop) (hP : StepInv env P) :
    ∀ (fuel : Nat) (task : WalkTask) (st : PState),
      P st → P (walk env fuel task st) := by
  intro fuel
  induction fuel with
  | zero => intro task st hst; simpa [walk] using hst
  | succ fuel ih =>
    intro task st hst
    cases task with
    | pages globs pre pages =>
      cases pages with
      | nil => simpa [walk] using hst
      | cons page rest =>
        simp only [walk]
        have hst1 : P (pushE st (.listCall pre)) := hP.1 st pre hst
        by_cases hg : globs.length ≤ 1
        · rw [if_pos hg]
          rcases hpc : processContents env page.contents
              (pushE st (.listCall pre)) with ⟨st', cont⟩
          have hst' : P st' := by
            have := hP.2 (pushE st (.listCall pre)) page.contents hst1
            rw [hpc] at this
            exact this
          cases cont with
          | true =>
            by_cases ht : page.truncated <;>
              simp [ht, ih (WalkTask.pages globs pre rest) st' hst', hst']
          | false => simpa using hst'
        · rw [if_neg hg]
          have h1 : P (walk env fuel (.cps globs page.markers)
              (pushE st (.listCall pre))) :=
            ih (WalkTask.cps globs page.markers) _ hst1
          by_cases ht : page.truncated <;>
            simp [ht, ih (WalkTask.pages globs pre rest) _ h1, h1]
    | cps globs ms =>
      cases ms with
      | nil => simpa [walk] using hst
      | cons m ms =>
        simp only [walk]
        by_cases hm : gmatch (globs.headD []) m
        · rw [if_pos hm]
          exact ih (WalkTask.cps globs ms) _
            (ih (WalkTask.pages globs.tail m
              (env.pages m (globs.tail.length > 1))) st hst)
        · rw [if_neg hm]
          exact ih (WalkTask.cps globs ms) st hst

theorem processContents_bytes_le (env : Env) :
    ∀ (cts : List SObj) (st : PState),
      st.bytes ≤ (processContents env cts st).1.bytes := by
  intro cts
  induction cts with
  | nil => intro st; simp [processContents]
  | cons o rest ih =>
    intro st
    simp only [processContents]
    by_cases hm : gmatch env.pat o.key
    · rw [if_pos hm]
      by_cases hl : env.listOnly
      · rw [if_pos hl]
        have := ih (pushE st (.printKey o.key))
        simp [pushE] at this ⊢
        omega
      · rw [if_neg hl]
        by_cases htr : env.limit < st.bytes + sizeBytes o.size
        · by_cases hsz : o.size < env.bufferLimit <;>
            simp [hsz, pushE, htr]
        · by_cases hsz : o.size < env.bufferLimit
          · have := ih ⟨st.bytes + sizeBytes o.size,
              st.trace ++ [PEvent.pooled o]⟩
            simp [hsz, pushE, htr] at this ⊢
            omega
          · have := ih ⟨st.bytes + sizeBytes o.size,
              st.trace ++ [PEvent.streamed o]⟩
            simp [hsz, pushE, htr] at this ⊢
            omega
    · rw [if_neg hm]
      exact ih st

theorem walk_bytes_le (env : Env) (fuel : Nat) (task : WalkTask)
    (st : PState) : st.bytes ≤ (walk env fuel task st).bytes := by
  refine walk_inv env (fun s => st.bytes ≤ s.bytes) ⟨?_, ?_⟩ fuel task st
    (Nat.le_refl _)
  · intro st' pre h
    exact h
  · intro st' cts h
    exact Nat.le_trans h (processContents_bytes_le env cts st')

theorem processContents_false_gt (env : Env) :
    ∀ (cts : List SObj) (st st' : PState),
      processContents env cts st = (st', false) → env.limit < st'.bytes := by
  intro cts
  induction cts with
  | nil => intro st st' h; simp [processContents] at h
  | cons o rest ih =>
    intro st st' h
    simp only [processContents] at h
    by_cases hm : gmatch env.pat o.key
    · rw [if_pos hm] at h
      by_cases hl : env.listOnly
      · rw [if_pos hl] at h
        exact ih _ _ h
      · rw [if_neg hl] at h
        by_cases htr : env.limit < st.bytes + sizeBytes o.size
        · by_cases hsz : o.size < env.bufferLimit <;>
            · simp only [hsz, if_true, if_false, pushE] at h
              rw [if_pos (by simpa using htr)] at h
              rw [Prod.mk.injEq] at h
              obtain ⟨h1, -⟩ := h
              rw [← h1]
              simpa using htr
        · by_cases hsz : o.size < env.bufferLimit <;>
            · simp only [hsz, if_true, if_false, pushE] at h
              simp only [gt_iff_lt] at h
              rw [if_neg (by simpa [pushE] using htr)] at h
              exact ih _ _ h
    · rw [if_neg hm] at h
      exact ih _ _ h

theorem walk_trip_stops (env : Env) (globs : List (List Nat)) (pre : List Nat)
    (page : Page) (rest : List Page) (st st' : PState) (fuel : Nat)
    (hg : globs.length ≤ 1)
    (hpc : processContents env page.contents (pushE st (.listCall pre)) =
      (st', false)) :
    walk env (fuel + 1) (.pages globs pre (page :: rest)) st = st' := by
  simp only [walk]
  rw [if_pos hg, hpc]

/-- Claim C2, amended: Once the byte counter exceeds the limit while
processing a leaf page, that traversal branch issues no further listing
pages (the pagination loop returns immediately, ignoring the remaining
pages); the counter at that point exceeds the limit; and — since the
counter only grows — any continuation of the run from that state keeps
the counter above the limit and yields the non-zero completion status
with a reported byte count of at least the limit.  (Sibling traversal
branches, however, may still issue listing pages: see the
counterexample.) -/
theorem claim2_limit_stop (env : Env) (globs : List (List Nat))
    (pre : List Nat) (page : Page) (rest : List Page) (st st' : PState)
    (fuel : Nat) (hg : globs.length ≤ 1)
    (hpc : processContents env page.contents (pushE st (.listCall pre)) =
      (st', false)) :
    walk env (fuel + 1) (.pages globs pre (page :: rest)) st = st' ∧
    env.limit < st'.bytes ∧
    (∀ (fuel2 : Nat) (task2 : WalkTask),
      env.limit < (walk env fuel2 task2 st').bytes ∧
      runStatus (walk env fuel2 task2 st').bytes env.limit = 1) := by
  have hgt : env.limit < st'.bytes := processContents_false_gt env _ _ _ hpc
  refine ⟨walk_trip_stops env globs pre page rest st st' fuel hg hpc, hgt, ?_⟩
  intro fuel2 task2
  have hle := walk_bytes_le env fuel2 task2 st'
  have hgt2 : env.limit < (walk env fuel2 task2 st').bytes := by omega
  exact ⟨hgt2, by simp [runStatus, hgt2]⟩

/-- Compiled pattern for `s3://b/*/**` (literal prefix empty, one
depth-scoped matcher `*/` plus the "any remaining" matcher). -/
def exGlob2 : GlobPattern :=
  newGlobPattern [[115], [47], [98, 47], [42, 47], [42, 42]]

/-- A store with two sibling subtrees `a/` and `b/`, each holding one
5-byte object, run with download limit 4. -/
def exStore2 : Env :=
  { pages := fun pre _ =>
      if pre = [] then [⟨[], [[97, 47], [98, 47]], false⟩]
      else if pre = [97, 47] then [⟨[⟨[97, 47, 120], 5⟩], [], false⟩]
      else if pre = [98, 47] then [⟨[⟨[98, 47, 121], 5⟩], [], false⟩]
      else []
    pat := exGlob2.pat
    bufferLimit := 100
    limit := 4
    listOnly := false }

/-- Counterexample to claim C2 as stated: After the object in subtree `a/` pushes the
counter to 5 > limit 4, the pending sibling branch `b/` still issues a
listing call (and dispatches its object): the trace contains a listing
call strictly after the counter exceeded the limit, refuting "no further
listing pages are issued in any pending traversal branch". -/
theorem claim2_counterexample :
    callsAfterTrip exStore2.limit (runProduce exStore2 exGlob2 10).trace 0 =
        [[98, 47]] ∧
    callsAfterTrip exStore2.limit (runProduce exStore2 exGlob2 10).trace 0 ≠
        [] := by
  constructor <;> decide

/-- Witness for the amended C2 at a concrete tripping page. -/
theorem claim2_limit_stop_witness :
    walk exStore2 4
        (.pages [[42, 47, 42, 42]] [97, 47] [⟨[⟨[97, 47, 120], 5⟩], [], false⟩])
        ⟨0, []⟩ =
      ⟨5, [.listCall [97, 47], .pooled ⟨[97, 47, 120], 5⟩]⟩ ∧
    exStore2.limit < (5 : Nat) ∧
    runStatus (walk exStore2 2 (.cps [] [])
        ⟨5, [.listCall [97, 47], .pooled ⟨[97, 47, 120], 5⟩]⟩).bytes
      exStore2.limit = 1 := by
  have h := claim2_limit_stop exStore2 [[42, 47, 42, 42]] [97, 47]
    ⟨[⟨[97, 47, 120], 5⟩], [], false⟩ []
    ⟨0, []⟩ ⟨5, [.listCall [97, 47], .pooled ⟨[97, 47, 120], 5⟩]⟩ 3
    (by decide) (by decide)
  exact ⟨h.1, h.2.1, (h.2.2 2 (.cps [] [])).2⟩

/-! ## List-only mode (C10) -/

theorem pooledOf_map_printKey (f : SObj → List Nat) (xs : List SObj) :
    pooledOf (xs.map (fun o => PEvent.printKey (f o))) = [] := by
  induction xs with
  | nil => simp [pooledOf]
  | cons x xs ih => simp [pooledOf, ih]

theorem streamedOf_map_printKey (f : SObj → List Nat) (xs : List SObj) :
    streamedOf (xs.map (fun o => PEvent.printKey (f o))) = [] := by
  induction xs with
  | nil => simp [streamedOf]
  | cons x xs ih => simp [streamedOf, ih]

theorem processContents_listOnly (env : Env) (hl : env.listOnly = true) :
    ∀ (cts : List SObj) (st : PState),
      processContents env cts st =
        ({ st with trace := st.trace ++
                     (cts.filter (fun o => gmatch env.pat o.key)).map
                       (fun o => PEvent.printKey o.key) }, true) := by
  intro cts
  induction cts with
  | nil => intro st; simp [processContents]
  | cons o rest ih =>
    intro st
    simp only [processContents]
    by_cases hm : gmatch env.pat o.key
    · rw [if_pos hm, if_pos hl, ih]
      simp [pushE, List.filter_cons, hm]
    · rw [if_neg hm, ih]
      simp [List.filter_cons, hm]

/-- Claim C10: In list-only mode every matched key of a processed page is
printed as exactly one key line, in page order, and nothing is dispatched
to either lane; over a whole run the byte counter stays zero, both lanes
receive no descriptors, and the completion status is 0 regardless of the
configured limit. -/
theorem claim10_list_only (env : Env) (hl : env.listOnly = true) :
    (∀ (cts : List SObj) (st : PState),
      processContents env cts st =
        ({ st with trace := st.trace ++
                     (cts.filter (fun o => gmatch env.pat o.key)).map
                       (fun o => PEvent.printKey o.key) }, true)) ∧
    (∀ (g : GlobPattern) (fuel : Nat),
      (runProduce env g fuel).bytes = 0 ∧
      pooledOf (runProduce env g fuel).trace = [] ∧
      streamedOf (runProduce env g fuel).trace = [] ∧
      runStatus (runProduce env g fuel).bytes env.limit = 0) := by
  refine ⟨processContents_listOnly env hl, ?_⟩
  intro g fuel
  have hP : (runProduce env g fuel).bytes = 0 ∧
      pooledOf (runProduce env g fuel).trace = [] ∧
      streamedOf (runProduce env g fuel).trace = [] := by
    refine walk_inv env
      (fun s => s.bytes = 0 ∧ pooledOf s.trace = [] ∧ streamedOf s.trace = [])
      ⟨?_, ?_⟩ fuel _ ⟨0, []⟩ ⟨rfl, by simp [pooledOf], by simp [streamedOf]⟩
    · intro st pre ⟨h1, h2, h3⟩
      exact ⟨h1, by simp [pushE, pooledOf_append, pooledOf, h2],
        by simp [pushE, streamedOf_append, streamedOf, h3]⟩
    · intro st cts ⟨h1, h2, h3⟩
      rw [processContents_listOnly env hl]
      refine ⟨h1, ?_, ?_⟩
      · simp [pooledOf_append, h2, pooledOf_map_printKey]
      · simp [streamedOf_append, h3, streamedOf_map_printKey]
  refine ⟨hP.1, hP.2.1, hP.2.2, ?_⟩
  rw [hP.1]
  simp [runStatus]

/-- The C2 store run in list-only mode. -/
def exStore10 : Env := { exStore2 with listOnly := true }

/-- Witness for C10: on a concrete page one key line per matched key is
printed, and the whole concrete run keeps the counter at zero with
status 0. -/
theorem claim10_list_only_witness :
    processContents exStore10 [⟨[97, 47, 120], 5⟩] ⟨0, []⟩ =
      (⟨0, [.printKey [97, 47, 120]]⟩, true) ∧
    (runProduce exStore10 exGlob2 10).bytes = 0 ∧
    runStatus (runProduce exStore10 exGlob2 10).bytes exStore10.limit = 0 := by
  have h := claim10_list_only exStore10 rfl
  refine ⟨?_, (h.2 exGlob2 10).1, (h.2 exGlob2 10).2.2.2⟩
  rw [h.1 [⟨[97, 47, 120], 5⟩] ⟨0, []⟩]
  decide

/-! ## Pooled-lane size guard (C8) -/

theorem processContents_pooled_inv (env : Env) :
    ∀ (cts : List SObj) (st : PState),
      (∀ o ∈ pooledOf st.trace, o.size < env.bufferLimit) →
      ∀ o ∈ pooledOf (processContents env cts st).1.trace,
        o.size < env.bufferLimit := by
  intro cts
  induction cts with
  | nil => intro st h; simpa [processContents] using h
  | cons o rest ih =>
    intro st hst
    by_cases hm : gmatch env.pat o.key
    · by_cases hl : env.listOnly
      · intro o' ho'
        refine ih (pushE st (.printKey o.key)) ?_ o' ?_
        · simpa [pushE, pooledOf_append, pooledOf] using hst
        · simpa [processContents, hm, hl] using ho'
      · by_cases htr : env.limit < st.bytes + sizeBytes o.size
        · by_cases hsz : o.size < env.bufferLimit
          · intro o' ho'
            simp [processContents, hm, hl, hsz, htr, pushE, pooledOf_append,
              pooledOf] at ho'
            rcases ho' with ho' | rfl
            exacts [hst o' ho', hsz]
          · intro o' ho'
            simp [processContents, hm, hl, hsz, htr, pushE, pooledOf_append,
              pooledOf] at ho'
            exact hst o' ho'
        · by_cases hsz : o.size < env.bufferLimit
          · intro o' ho'
            refine ih ⟨st.bytes + sizeBytes o.size,
              st.trace ++ [.pooled o]⟩ ?_ o' ?_
            · intro x hx
              simp [pooledOf_append, pooledOf] at hx
              rcases hx with hx | rfl
              exacts [hst x hx, hsz]
            · simpa [processContents, hm, hl, hsz, htr, pushE] using ho'
          · intro o' ho'
            refine ih ⟨st.bytes + sizeBytes o.size,
              st.trace ++ [.streamed o]⟩ ?_ o' ?_
            · intro x hx
              simp [pooledOf_append, pooledOf] at hx
              exact hst x hx
            · simpa [processContents, hm, hl, hsz, htr, pushE] using ho'
    · intro o' ho'
      refine ih st hst o' ?_
      simpa [processContents, hm] using ho'

/-- Claim C8: Every descriptor the producer routes to the pooled lane has
size strictly below the memory cap `B` (the routing threshold), so a
worker's admission request for capacity equal to the object's size is
grantable from an idle guard (`0 + size ≤ B`); and an object whose size
exceeds `B` reaching the pooled lane trips the fatal construction-bug
check in `consume` instead of blocking. -/
theorem claim8_pooled_size_guard (env : Env) (g : GlobPattern) (fuel : Nat) :
    (∀ o ∈ pooledOf (runProduce env g fuel).trace,
      o.size < env.bufferLimit ∧
      semAcquireOk env.bufferLimit 0 o.size = true) ∧
    (∀ size B : Int, B < size → consumeSizeCheck size B = true) := by
  constructor
  · intro o ho
    have hsz : o.size < env.bufferLimit := by
      refine walk_inv env
        (fun s => ∀ x ∈ pooledOf s.trace, x.size < env.bufferLimit)
        ⟨?_, ?_⟩ fuel _ ⟨0, []⟩ (by simp [pooledOf]) o ho
      · intro st pre h x hx
        refine h x ?_
        simpa [pushE, pooledOf_append, pooledOf] using hx
      · intro st cts h
        exact processContents_pooled_inv env cts st h
    refine ⟨hsz, ?_⟩
    simp [semAcquireOk]
    omega
  · intro size B h
    simp [consumeSizeCheck]
    omega

/-- Witness for C8 at the concrete C2 store: the pooled descriptor for
`a/x` (5 bytes) fits the cap 100 and its admission succeeds; a 200-byte
object against cap 100 trips the fatal check. -/
theorem claim8_pooled_size_guard_witness :
    ((5 : Int) < exStore2.bufferLimit ∧
      semAcquireOk exStore2.bufferLimit 0 5 = true) ∧
    consumeSizeCheck 200 100 = true := by
  have h := claim8_pooled_size_guard exStore2 exGlob2 10
  exact ⟨h.1 ⟨[97, 47, 120], 5⟩ (by decide), h.2 200 100 (by decide)⟩

/-! ## Subtree pruning (C6) -/

theorem fcpLoop_mem (count : Int) (cps : List (List Nat)) :
    ∀ (pairs : List (List Nat × Int)) (m : List Nat),
      m ∈ fcpLoop count cps pairs →
      m ∈ cps ∧ ∃ pat c, (pat, c) ∈ pairs ∧ (c = -1 ∨ c = count) ∧
        gmatch pat m = true := by
  intro pairs
  induction pairs with
  | nil => intro m h; simp [fcpLoop] at h
  | cons pc rest ih =>
    intro m h
    obtain ⟨pat, c⟩ := pc
    simp only [fcpLoop] at h
    rcases List.mem_append.mp h with h | h
    · by_cases hc : c = -1 ∨ c = count
      · rw [if_pos hc] at h
        have hm := List.mem_filter.mp h
        exact ⟨hm.1, pat, c, by simp, hc, hm.2⟩
      · rw [if_neg hc] at h
        simp at h
    · obtain ⟨hcps, pat', c', hmem, hc', hg⟩ := ih m h
      exact ⟨hcps, pat', c', by simp [hmem], hc', hg⟩

/-- Compiled pattern for `s3://b/a/*/c/**`: matchers `a/*/` (depth 2),
`a/*/c/` (depth 3), `a/*/c/**` (any remaining). -/
def exGlob6 : GlobPattern :=
  newGlobPattern [[115], [47], [98, 47], [97, 47], [42, 47], [99, 47], [42, 42]]

/-- A store for the `a/*/c/**` traversal: prefix `a/` has the subtree
marker `a/x/`, and prefix `a/x/` has the subtree marker `a/x/d/`. -/
def exStore6 : Env :=
  { pages := fun pre _ =>
      if pre = [97, 47] then [⟨[], [[97, 47, 120, 47]], false⟩]
      else if pre = [97, 47, 120, 47] then
        [⟨[], [[97, 47, 120, 47, 100, 47]], false⟩]
      else []
    pat := exGlob6.pat
    bufferLimit := 100
    limit := 1000
    listOnly := false }

/-- Claim C6: A subtree marker is kept for recursion only when some matcher
whose depth tag equals the marker depth (the listing prefix depth plus
one), or is "any remaining", accepts it; when the store returns markers
one level below the listing prefix this is exactly "a matcher whose depth
equals the marker's depth or is any-remaining matches it".  Concretely,
for the pattern `a/*/c/**` the marker `a/x/d/` is matched by no eligible
matcher, and the traversal never issues a listing call for it. -/
theorem claim6_subtree_pruning :
    (∀ (g : GlobPattern) (cps : List (List Nat)) (pre m : List Nat),
      m ∈ filterCommonPrefixes g cps pre →
      m ∈ cps ∧ ∃ pat c, (pat, c) ∈ g.globs.zip g.counts ∧
        (c = -1 ∨ c = countSlashes pre + 1) ∧ gmatch pat m = true) ∧
    (∀ (g : GlobPattern) (cps : List (List Nat)) (pre m : List Nat),
      (∀ m' ∈ cps, countSlashes m' = countSlashes pre + 1) →
      m ∈ filterCommonPrefixes g cps pre →
      ∃ pat c, (pat, c) ∈ g.globs.zip g.counts ∧
        (c = -1 ∨ c = countSlashes m) ∧ gmatch pat m = true) ∧
    filterCommonPrefixes exGlob6 [[97, 47, 120, 47, 100, 47]]
        [97, 47, 120, 47] = [] ∧
    (runProduce exStore6 exGlob6 10).trace =
      [.listCall [97, 47], .listCall [97, 47, 120, 47]] := by
  have hmem : ∀ (g : GlobPattern) (cps : List (List Nat)) (pre m : List Nat),
      m ∈ filterCommonPrefixes g cps pre →
      m ∈ cps ∧ ∃ pat c, (pat, c) ∈ g.globs.zip g.counts ∧
        (c = -1 ∨ c = countSlashes pre + 1) ∧ gmatch pat m = true := by
    intro g cps pre m h
    exact fcpLoop_mem (countSlashes pre + 1) cps (g.globs.zip g.counts) m h
  refine ⟨hmem, ?_, by decide, by decide⟩
  intro g cps pre m hdepth h
  obtain ⟨hcps, pat, c, hp, hc, hg⟩ := hmem g cps pre m h
  exact ⟨pat, c, hp, by rw [hdepth m hcps]; exact hc, hg⟩

/-- Witness for C6's universally quantified parts: a marker `a/x/c/` that
is kept carries an eligible matcher. -/
theorem claim6_subtree_pruning_witness :
    ([97, 47, 120, 47, 99, 47] ∈ ([[97, 47, 120, 47, 99, 47]] : List (List Nat)) ∧
      ∃ pat c, (pat, c) ∈ exGlob6.globs.zip exGlob6.counts ∧
        (c = -1 ∨ c = countSlashes [97, 47, 120, 47] + 1) ∧
        gmatch pat [97, 47, 120, 47, 99, 47] = true) ∧
    (∃ pat c, (pat, c) ∈ exGlob6.globs.zip exGlob6.counts ∧
      (c = -1 ∨ c = countSlashes [97, 47, 120, 47, 99, 47]) ∧
      gmatch pat [97, 47, 120, 47, 99, 47] = true) := by
  refine ⟨claim6_subtree_pruning.1 exGlob6 [[97, 47, 120, 47, 99, 47]]
    [97, 47, 120, 47] [97, 47, 120, 47, 99, 47] (by decide),
    claim6_subtree_pruning.2.1 exGlob6 [[97, 47, 120, 47, 99, 47]]
    [97, 47, 120, 47] [97, 47, 120, 47, 99, 47] (by decide) (by decide)⟩

/-! ## Literal prefix and listing prefixes (C7) -/

theorem indexByte_none {c : Nat} :
    ∀ {l : List Nat}, indexByte c l = none → c ∉ l := by
  intro l
  induction l with
  | nil => intro _ h; simp at h
  | cons d rest ih =>
    intro h hmem
    simp only [indexByte] at h
    by_cases hd : d = c
    · simp [hd] at h
    · rw [if_neg hd] at h
      rcases List.mem_cons.mp hmem with rfl | hmem
      · exact hd rfl
      · cases hrec : indexByte c rest with
        | none => exact ih hrec hmem
        | some i => rw [hrec] at h; simp at h

theorem indexByte_some_take {c : Nat} :
    ∀ {l : List Nat} {i : Nat}, indexByte c l = some i → c ∉ l.take i := by
  intro l
  induction l with
  | nil => intro i h; simp [indexByte] at h
  | cons d rest ih =>
    intro i h
    simp only [indexByte] at h
    by_cases hd : d = c
    · rw [if_pos hd] at h
      cases h
      simp
    · rw [if_neg hd] at h
      cases hrec : indexByte c rest with
      | none => rw [hrec] at h; simp at h
      | some j =>
        rw [hrec] at h
        simp at h
        subst h
        intro hmem
        rcases List.mem_cons.mp (by simpa using hmem) with rfl | hmem'
        · exact hd rfl
        · exact ih hrec hmem'

theorem take_take_of_le {l : List Nat} {m n : Nat} (h : m ≤ n) :
    (l.take n).take m = l.take m := by
  rw [List.take_take]
  simp [Nat.min_eq_left h]

theorem not_mem_take_of_le {c : Nat} {l : List Nat} {m n : Nat}
    (hmn : m ≤ n) (h : c ∉ l.take n) : c ∉ l.take m := by
  intro hc
  apply h
  rw [← take_take_of_le hmn] at hc
  exact List.take_subset m (l.take n) hc

theorem scanMeta_take :
    ∀ (cs : List Nat) (p : List Nat) (g : Bool),
      ∃ k, (scanMeta cs (p, g)).1 = p.take k := by
  intro cs
  induction cs with
  | nil => intro p g; exact ⟨p.length, by simp [scanMeta]⟩
  | cons c cs ih =>
    intro p g
    simp only [scanMeta]
    cases hidx : indexByte c p with
    | none => exact ih p g
    | some idx =>
      by_cases hcond : (!g && p.getLastD 0 = sepByte) = true
      · rw [if_pos hcond]
        obtain ⟨k, hk⟩ := ih (p.dropLast.take idx) true
        refine ⟨min (min k idx) (p.length - 1), ?_⟩
        rw [hk, List.dropLast_eq_take, List.take_take, List.take_take]
      · rw [if_neg hcond]
        obtain ⟨k, hk⟩ := ih (p.take idx) true
        refine ⟨min k idx, ?_⟩
        rw [hk, List.take_take]

theorem scanMeta_scrubbed :
    ∀ (cs : List Nat) (p : List Nat) (g : Bool) (c : Nat),
      c ∈ cs → c ∉ (scanMeta cs (p, g)).1 := by
  intro cs
  induction cs with
  | nil => intro p g c h; simp at h
  | cons c' cs ih =>
    intro p g c hc
    simp only [scanMeta]
    rcases List.mem_cons.mp hc with rfl | hc
    · -- the head character cannot survive its own scan
      cases hidx : indexByte c p with
      | none =>
        have hnot : c ∉ p := indexByte_none hidx
        obtain ⟨k, hk⟩ := scanMeta_take cs p g
        rw [hk]
        intro hmem
        exact hnot (List.take_subset k p hmem)
      | some idx =>
        have hnotk : c ∉ p.take idx := indexByte_some_take hidx
        by_cases hcond : (!g && p.getLastD 0 = sepByte) = true
        · rw [if_pos hcond]
          obtain ⟨k, hk⟩ := scanMeta_take cs (p.dropLast.take idx) true
          rw [hk]
          intro hmem
          have h1 : c ∈ p.dropLast.take idx :=
            List.take_subset k _ hmem
          rw [List.dropLast_eq_take, List.take_take] at h1
          exact not_mem_take_of_le (Nat.min_le_left idx (p.length - 1)) hnotk h1
        · rw [if_neg hcond]
          obtain ⟨k, hk⟩ := scanMeta_take cs (p.take idx) true
          rw [hk]
          intro hmem
          exact hnotk (List.take_subset k _ hmem)
    · -- tail characters are removed by the recursive scan
      cases hidx : indexByte c' p with
      | none => exact ih p g c hc
      | some idx =>
        by_cases hcond : (!g && p.getLastD 0 = sepByte) = true
        · rw [if_pos hcond]
          exact ih _ true c hc
        · rw [if_neg hcond]
          exact ih _ true c hc

theorem nGPLoop_scrubbed :
    ∀ (dirs : List (List Nat)) (seen pre : List Nat) (globbed : Bool)
      (globs : List (List Nat)) (counts : List Int),
      (∀ c ∈ metaBytes, c ∉ pre) →
      ∀ c ∈ metaBytes, c ∉ (nGPLoop dirs seen pre globbed globs counts).1 := by
  intro dirs
  induction dirs with
  | nil => intro seen pre globbed globs counts h; simpa [nGPLoop] using h
  | cons dir rest ih =>
    intro seen pre globbed globs counts h c hc
    simp only [nGPLoop]
    by_cases hds : hasDoubleStar dir
    · simpa [hds] using h c hc
    · rw [if_neg hds]
      by_cases hg : globbed
      · subst hg
        simp only [if_true]
        exact ih (seen ++ dir) pre true _ _ h c hc
      · simp only [Bool.not_eq_true] at hg
        subst hg
        simp only [Bool.false_eq_true, if_false]
        rcases hsm : scanMeta metaBytes (pre ++ dir, false) with ⟨pre1, g1⟩
        have hscrub : ∀ c' ∈ metaBytes, c' ∉ pre1 := by
          intro c' hc'
          have := scanMeta_scrubbed metaBytes (pre ++ dir) false c' hc'
          rw [hsm] at this
          exact this
        simp only [hsm]
        exact ih (seen ++ dir) pre1 g1 _ _ hscrub c hc

/-- The compiled literal prefix contains no glob metacharacter. -/
theorem litPre_meta_free (urlArg : List (List Nat)) :
    ∀ c ∈ metaBytes, c ∉ (newGlobPattern urlArg).litPre := by
  intro c hc
  rcases hloop : nGPLoop (urlArg.drop 3) [] [] false [] [] with ⟨pre, gs, cn⟩
  have := nGPLoop_scrubbed (urlArg.drop 3) [] [] false [] [] (by simp) c hc
  rw [hloop] at this
  simpa [newGlobPattern, hloop] using this

theorem leadsUpTo_iff {p q : List Nat} :
    leadsUpTo p q = true ↔ ∃ r, q = p ++ r := by
  constructor
  · intro h
    have heq : p = q.take p.length := beq_iff_eq.mp h
    exact ⟨q.drop p.length, by conv_lhs => rw [← List.take_append_drop p.length q, ← heq]⟩
  · rintro ⟨r, rfl⟩
    simp [leadsUpTo, List.take_left]

theorem leadsUpTo_refl (p : List Nat) : leadsUpTo p p = true := by
  rw [leadsUpTo_iff]
  exact ⟨[], by simp⟩

theorem leadsUpTo_trans {a b c : List Nat} (h1 : leadsUpTo a b = true)
    (h2 : leadsUpTo b c = true) : leadsUpTo a c = true := by
  rw [leadsUpTo_iff] at h1 h2 ⊢
  obtain ⟨r1, rfl⟩ := h1
  obtain ⟨r2, rfl⟩ := h2
  exact ⟨r1 ++ r2, by simp⟩

theorem processContents_listCall (env : Env) :
    ∀ (cts : List SObj) (st : PState) (p : List Nat),
      PEvent.listCall p ∈ (processContents env cts st).1.trace →
      PEvent.listCall p ∈ st.trace := by
  intro cts
  induction cts with
  | nil => intro st p h; simpa [processContents] using h
  | cons o rest ih =>
    intro st p h
    by_cases hm : gmatch env.pat o.key
    · by_cases hl : env.listOnly
      · have := ih (pushE st (.printKey o.key)) p
          (by simpa [processContents, hm, hl] using h)
        simpa [pushE] using this
      · by_cases htr : env.limit < st.bytes + sizeBytes o.size
        · by_cases hsz : o.size < env.bufferLimit <;>
            · simp [processContents, hm, hl, hsz, htr, pushE] at h
              exact h
        · by_cases hsz : o.size < env.bufferLimit
          · have := ih ⟨st.bytes + sizeBytes o.size,
              st.trace ++ [.pooled o]⟩ p
              (by simpa [processContents, hm, hl, hsz, htr, pushE] using h)
            simpa using this
          · have := ih ⟨st.bytes + sizeBytes o.size,
              st.trace ++ [.streamed o]⟩ p
              (by simpa [processContents, hm, hl, hsz, htr, pushE] using h)
            simpa using this
    · exact ih st p (by simpa [processContents, hm] using h)

/-- The invariant a pending task maintains relative to the run's root
prefix: a pagination task's own prefix extends the root and its pending
pages' markers extend that prefix; a marker-scan task's markers extend
the root. -/
def taskOK (root : List Nat) : WalkTask → Prop
  | .pages _ pre pages =>
    leadsUpTo root pre = true ∧
      ∀ pg ∈ pages, ∀ m ∈ pg.markers, leadsUpTo pre m = true
  | .cps _ ms => ∀ m ∈ ms, leadsUpTo root m = true

theorem walk_listCalls_extend (env : Env) (root : List Nat)
    (hwf : ∀ pre d, ∀ pg ∈ env.pages pre d, ∀ m ∈ pg.markers,
      leadsUpTo pre m = true) :
    ∀ (fuel : Nat) (task : WalkTask) (st : PState),
      taskOK root task →
      (∀ p, PEvent.listCall p ∈ st.trace → leadsUpTo root p = true) →
      ∀ p, PEvent.listCall p ∈ (walk env fuel task st).trace →
        leadsUpTo root p = true := by
  intro fuel
  induction fuel with
  | zero =>
    intro task st _ hst p hp
    simp only [walk] at hp
    exact hst p hp
  | succ fuel ih =>
    intro task st htask hst p hp
    cases task with
    | pages globs pre pages =>
      cases pages with
      | nil =>
        simp only [walk] at hp
        exact hst p hp
      | cons page rest =>
        obtain ⟨hpre, hmk⟩ := htask
        have hst1 : ∀ q, PEvent.listCall q ∈ (pushE st (.listCall pre)).trace →
            leadsUpTo root q = true := by
          intro q hq
          simp [pushE] at hq
          rcases hq with hq | hq
          · exact hst q hq
          · rw [hq]; exact hpre
        revert hp
        simp only [walk]
        by_cases hg : globs.length ≤ 1
        · rw [if_pos hg]
          rcases hpc : processContents env page.contents
              (pushE st (.listCall pre)) with ⟨st', cont⟩
          have hst' : ∀ q, PEvent.listCall q ∈ st'.trace →
              leadsUpTo root q = true := by
            intro q hq
            apply hst1 q
            have := processContents_listCall env page.contents
              (pushE st (.listCall pre)) q
            rw [hpc] at this
            exact this hq
          cases cont with
          | true =>
            by_cases ht : page.truncated
            · simp only [ht, if_true]
              exact ih (.pages globs pre rest) st'
                ⟨hpre, fun pg hpg => hmk pg (List.mem_cons_of_mem _ hpg)⟩
                hst' p
            · simp only [ht, Bool.false_eq_true, if_false]
              exact hst' p
          | false => exact hst' p
        · rw [if_neg hg]
          have hcpsok : taskOK root (.cps globs page.markers) := by
            intro m hm
            exact leadsUpTo_trans hpre (hmk page (by simp) m hm)
          have h1 := ih (.cps globs page.markers)
            (pushE st (.listCall pre)) hcpsok hst1
          by_cases ht : page.truncated
          · simp only [ht, if_true]
            exact ih (.pages globs pre rest) _
              ⟨hpre, fun pg hpg => hmk pg (List.mem_cons_of_mem _ hpg)⟩ h1 p
          · simp only [ht, Bool.false_eq_true, if_false]
            exact h1 p
    | cps globs ms =>
      cases ms with
      | nil =>
        simp only [walk] at hp
        exact hst p hp
      | cons m ms =>
        revert hp
        simp only [walk]
        by_cases hm : gmatch (globs.headD []) m
        · rw [if_pos hm]
          have hin : taskOK root (.pages globs.tail m
              (env.pages m (globs.tail.length > 1))) :=
            ⟨htask m (by simp), fun pg hpg mm hmm => by
              have := hwf m (globs.tail.length > 1) pg hpg mm hmm
              exact this⟩
          have h1 := ih (.pages globs.tail m
            (env.pages m (globs.tail.length > 1))) st hin hst
          exact ih (.cps globs ms) _
            (fun m' hm' => htask m' (List.mem_cons_of_mem _ hm')) h1 p
        · rw [if_neg hm]
          exact ih (.cps globs ms) st
            (fun m' hm' => htask m' (List.mem_cons_of_mem _ hm')) hst p

/-- Claim C7: The compiled literal prefix contains no glob metacharacter,
and — whenever the store's subtree markers extend the prefix they were
listed under (hierarchical listing) — every listing call of the whole
traversal uses a prefix that extends the literal prefix. -/
theorem claim7_prefix_invariants (urlArg : List (List Nat)) (env : Env)
    (fuel : Nat)
    (hwf : ∀ pre d, ∀ pg ∈ env.pages pre d, ∀ m ∈ pg.markers,
      leadsUpTo pre m = true) :
    (∀ c ∈ metaBytes, c ∉ (newGlobPattern urlArg).litPre) ∧
    (∀ p, PEvent.listCall p ∈
        (runProduce env (newGlobPattern urlArg) fuel).trace →
      leadsUpTo (newGlobPattern urlArg).litPre p = true) := by
  refine ⟨litPre_meta_free urlArg, ?_⟩
  intro p hp
  simp only [runProduce] at hp
  refine walk_listCalls_extend env (newGlobPattern urlArg).litPre hwf fuel _
    ⟨0, []⟩ ?_ (by simp) p hp
  exact ⟨leadsUpTo_refl _, fun pg hpg m hm => hwf _ _ pg hpg m hm⟩

/-- Witness for C7 at the concrete two-subtree store: the pattern
`*/**` compiles to an empty, metacharacter-free literal prefix, the store
is hierarchical, and the listing call for `b/` extends the literal
prefix. -/
theorem claim7_prefix_invariants_witness :
    (∀ c ∈ metaBytes,
      c ∉ (newGlobPattern [[115], [47], [98, 47], [42, 47], [42, 42]]).litPre) ∧
    leadsUpTo (newGlobPattern [[115], [47], [98, 47], [42, 47], [42, 42]]).litPre
      [98, 47] = true := by
  have hwf : ∀ pre d, ∀ pg ∈ exStore2.pages pre d, ∀ m ∈ pg.markers,
      leadsUpTo pre m = true := by
    intro pre d pg hpg m hm
    by_cases h1 : pre = []
    · subst h1
      simp [exStore2] at hpg
      subst hpg
      simp at hm
      rcases hm with rfl | rfl <;> decide
    · by_cases h2 : pre = [97, 47]
      · subst h2
        simp [exStore2] at hpg
        subst hpg
        simp at hm
      · by_cases h3 : pre = [98, 47]
        · subst h3
          simp [exStore2, h1] at hpg
          subst hpg
          simp at hm
        · simp [exStore2, h1, h2, h3] at hpg
  have h := claim7_prefix_invariants [[115], [47], [98, 47], [42, 47], [42, 42]]
    exStore2 10 hwf
  exact ⟨h.1, h.2 [98, 47] (by decide)⟩

end Cpdash
